import Mathlib

/-!
Verification of the CART-style decision-tree learner in `hm05/hw5code.py`.

The Python source is shallowly embedded: feature values and labels become
rationals (`ℚ`), numpy arrays become lists, and code paths that raise a
Python exception become `Except.error` with the corresponding message.
Each definition mirrors one function (or one clearly delimited block) of
the source file and is named after it.
-/

namespace HW5

/-- Sorted list of the distinct values of a list, modelling `np.unique`
(which returns the sorted distinct values of its argument). -/
def uniqueSorted (l : List ℚ) : List ℚ :=
  List.insertionSort (fun a b => a ≤ b) l.dedup

/-- Midpoints of each adjacent pair of a list, modelling the loop
`for i in range(len(unique_values) - 1): threshold = (u[i] + u[i+1]) / 2`. -/
def midpoints : List ℚ → List ℚ
  | [] => []
  | [_] => []
  | a :: b :: rest => (a + b) / 2 :: midpoints (b :: rest)

/-- The candidate thresholds kept by `find_best_split`: midpoints of
adjacent distinct sorted values whose induced left mask
(`feature_vector < threshold`) and right mask (its complement) are both
non-empty (`np.any(left_mask) and np.any(right_mask)`). -/
def retainedThresholds (fv : List ℚ) : List ℚ :=
  (midpoints (uniqueSorted fv)).filter
    (fun t => (fv.any fun v => decide (v < t)) && (fv.any fun v => !decide (v < t)))

/-- Gini impurity of a label multiset, as computed in the source:
`1 - sum((count / size) ** 2 for count in Counter(labels).values())`.
The `size` divisor is passed separately because the source divides by the
mask's popcount, not by `len(labels)`. -/
def giniOf (labels : List ℚ) (size : ℕ) : ℚ :=
  1 - (labels.dedup.map (fun c => ((labels.count c : ℚ) / (size : ℚ)) ^ 2)).sum

/-- Labels of the rows whose feature value is strictly below the threshold,
modelling `target_vector[left_mask]` with `left_mask = feature_vector < threshold`. -/
def leftLabels (fv y : List ℚ) (t : ℚ) : List ℚ :=
  ((fv.zip y).filter (fun p => decide (p.1 < t))).map Prod.snd

/-- Labels of the complementary rows, modelling `target_vector[right_mask]`
with `right_mask = ~left_mask`. -/
def rightLabels (fv y : List ℚ) (t : ℚ) : List ℚ :=
  ((fv.zip y).filter (fun p => !decide (p.1 < t))).map Prod.snd

/-- The weighted Gini score assigned to one retained threshold, modelling
the block `left_gini = ...; right_gini = ...; weighted_gini = (left_size /
total_count) * left_gini + (right_size / total_count) * right_gini` of the
source.  `left_size` and `right_size` are the mask popcounts
(`left_mask.sum()`, `right_mask.sum()`), i.e. counts over `feature_vector`;
`total_count = len(target_vector)`. -/
def splitScore (fv y : List ℚ) (t : ℚ) : ℚ :=
  (((fv.filter (fun v => decide (v < t))).length : ℚ) / (y.length : ℚ))
      * giniOf (leftLabels fv y t) (fv.filter (fun v => decide (v < t))).length
    + (((fv.filter (fun v => !decide (v < t))).length : ℚ) / (y.length : ℚ))
      * giniOf (rightLabels fv y t) (fv.filter (fun v => !decide (v < t))).length

/-- The parallel `(thresholds, ginis)` accumulation of `find_best_split`'s
main loop, as a list of pairs. -/
def splitCandidates (fv y : List ℚ) : List (ℚ × ℚ) :=
  (retainedThresholds fv).map (fun t => (t, splitScore fv y t))

/-- First index of the minimum of a list, modelling `np.argmin` (which
returns the first occurrence of the minimum). -/
def argminIdx : List ℚ → ℕ
  | [] => 0
  | x :: xs => if x ≤ xs.getD (argminIdx xs) x then 0 else argminIdx xs + 1

/-- Embedding of `find_best_split(feature_vector, target_vector)`.
Returns `(thresholds, ginis, threshold_best, gini_best)`.  If fewer than
two distinct feature values exist it returns empty sequences and `None`
sentinels; otherwise, when the candidate list is non-empty, the best
threshold/score pair is taken at `np.argmin(ginis)`. -/
def findBestSplit (fv y : List ℚ) : List ℚ × List ℚ × Option ℚ × Option ℚ :=
  if (uniqueSorted fv).length < 2 then ([], [], none, none)
  else if splitCandidates fv y = [] then ([], [], none, none)
  else
    ((splitCandidates fv y).map Prod.fst, (splitCandidates fv y).map Prod.snd,
      some (((splitCandidates fv y).map Prod.fst).getD
        (argminIdx ((splitCandidates fv y).map Prod.snd)) 0),
      some (((splitCandidates fv y).map Prod.snd).getD
        (argminIdx ((splitCandidates fv y).map Prod.snd)) 0))

/-- First index of the maximum of a list, modelling `np.argmax` (which
returns the first occurrence of the maximum). -/
def argmaxIdx : List ℚ → ℕ
  | [] => 0
  | x :: xs => if xs.getD (argmaxIdx xs) x ≤ x then 0 else argmaxIdx xs + 1

/-- Maximum of a list of rationals (`ginis.max()`); `0` on the empty list,
where the source would raise instead (callers below guard that case). -/
def maxOf : List ℚ → ℚ
  | [] => 0
  | [x] => x
  | x :: y :: xs => max x (maxOf (y :: xs))

/-- Distinct elements of a list in first-occurrence order, modelling the
key order of a Python `Counter`/`dict` built from the list. -/
def firstDedupAux : List ℚ → List ℚ → List ℚ
  | [], acc => acc.reverse
  | x :: xs, acc => if x ∈ acc then firstDedupAux xs acc else firstDedupAux xs (x :: acc)

/-- Distinct elements of a list, keeping the first occurrence of each. -/
def firstDedup (l : List ℚ) : List ℚ :=
  firstDedupAux l []

/-- Most common element of a label list, modelling
`Counter(sub_y).most_common(1)[0][0]`: the first-encountered element of
maximal multiplicity; `none` when the list is empty (where the source
raises `IndexError`). -/
def mostCommon (y : List ℚ) : Option ℚ :=
  (firstDedup y).foldl
    (fun acc c =>
      match acc with
      | none => some c
      | some b => if y.count b < y.count c then some c else some b)
    none

/-- Node of the fitted tree.  The source stores nodes as dictionaries with
a `type` tag of `terminal` (holding `class`) or `nonterminal` (holding
`feature_split`, `threshold`, `left_child`, `right_child`). -/
inductive Node where
  | terminal (c : ℚ)
  | internal (feature : ℕ) (threshold : ℚ) (left : Node) (right : Node)
deriving DecidableEq

/-- Embedding of `DecisionTree.__init__`: raises
`ValueError("There is unknown feature type")` when any tag differs from
both `"real"` and `"categorical"`, otherwise stores the tags.  It runs
before any data row exists. -/
def decisionTreeInit (featureTypes : List String) : Except String (List String) :=
  if featureTypes.any (fun x => decide (x ≠ "real" ∧ x ≠ "categorical")) then
    .error "There is unknown feature type"
  else
    .ok featureTypes

/-- Values of a categorical column restricted to the rows whose label is
`1`, modelling `sub_X[sub_y == 1, feature]` (the argument of the `clicks`
Counter). -/
def clickVals (col y : List ℚ) : List ℚ :=
  ((col.zip y).filter (fun p => decide (p.2 = 1))).map Prod.fst

/-- Per-category statistic of the categorical encoder, modelling
`ratio = {key: counts[key] / clicks[key] if key in clicks else 0 for key in counts}`:
total occurrence count divided by occurrence count within the
reference class `y == 1`, and `0` when the category is absent from that
class. -/
def ratioStat (col y : List ℚ) (c : ℚ) : ℚ :=
  if (clickVals col y).count c ≠ 0 then
    (col.count c : ℚ) / ((clickVals col y).count c : ℚ)
  else 0

/-- Categories of the current subset sorted ascending by their statistic,
modelling `sorted(ratio.items(), key=lambda x: x[1])` (keys in
first-occurrence order, then stably sorted by the statistic). -/
def sortedCategories (col y : List ℚ) : List ℚ :=
  List.insertionSort (fun a b => ratioStat col y a ≤ ratioStat col y b) (firstDedup col)

/-- Rank of a category, modelling
`categories_map = {cat: idx for idx, (cat, _) in enumerate(sorted_categories)}`. -/
def categoriesMap (col y : List ℚ) (c : ℚ) : ℕ :=
  (sortedCategories col y).indexOf c

/-- The orderable surrogate vector of a categorical column, modelling
`feature_vector = np.array([categories_map[x] for x in sub_X[:, feature]])`. -/
def encodeCategorical (col y : List ℚ) : List ℕ :=
  col.map (categoriesMap col y)

/-- One step of the cross-feature best-split tracking of `_fit_node`
(the block `if gini_best is None or (ginis is not None and ginis.max() >
gini_best): ...`), folded over the per-feature `(thresholds, ginis)`
results.  A feature whose `ginis` is empty makes the source raise (taking
`.max()` of an empty sequence), modelled as `Except.error`.  The state is
`some (feature_best, threshold_best, gini_best)` or `none`. -/
def selectGo : ℕ → Option (ℕ × ℚ × ℚ) → List (List ℚ × List ℚ) → Except String (Option (ℕ × ℚ × ℚ))
  | _, st, [] => .ok st
  | i, st, (thr, gin) :: rest =>
    if gin = [] then .error "max of empty sequence"
    else
      selectGo (i + 1)
        (match st with
         | none => some (i, thr.getD (argmaxIdx gin) 0, maxOf gin)
         | some (f, t, g) =>
           if g < maxOf gin then some (i, thr.getD (argmaxIdx gin) 0, maxOf gin)
           else some (f, t, g))
        rest

/-- The cross-feature selection of `_fit_node`, lines 107-112 of the
source: fold `selectGo` over the per-feature split results, starting from
`gini_best = None`. -/
def selectBestFeature (results : List (List ℚ × List ℚ)) : Except String (Option (ℕ × ℚ × ℚ)) :=
  selectGo 0 none results

/-- Column count of a row-major matrix given as a list of rows
(`sub_X.shape[1]`; for an empty row list no column count survives the
embedding, so it is taken as `0`). -/
def ncols (X : List (List ℚ)) : ℕ :=
  (X.headD []).length

/-- Embedding of `DecisionTree._fit_node(sub_X, sub_y, node)`.
If all labels agree (`len(set(sub_y)) == 1`) it returns the terminal node
holding `sub_y[0]`.  Otherwise the per-feature loop runs: with no columns
it is skipped and `gini_best is None` yields the majority-class terminal
(raising `IndexError` on an empty label list); with at least one column,
the first iteration dispatches on `feature_types[0]` and then executes
`thresholds, ginis = find_best_split(...)`, which unpacks the 4-tuple
returned by `find_best_split` into two variables and therefore raises
`ValueError` before any split is built. -/
def fitNode (featureTypes : List String) (X : List (List ℚ)) (y : List ℚ) : Except String Node :=
  if y.dedup.length = 1 then .ok (.terminal (y.headD 0))
  else if ncols X = 0 then
    match mostCommon y with
    | some c => .ok (.terminal c)
    | none => .error "IndexError: list index out of range"
  else
    match featureTypes with
    | [] => .error "IndexError: list index out of range"
    | t :: _ =>
      if t = "real" ∨ t = "categorical" then
        .error "ValueError: too many values to unpack (expected 2)"
      else .error "ValueError: Unknown feature type"

/-- Embedding of `DecisionTree.fit(X, y)`: it forwards to `_fit_node`
with no validation of any kind at entry. -/
def fit (featureTypes : List String) (X : List (List ℚ)) (y : List ℚ) : Except String Node :=
  fitNode featureTypes X y

/-- Python `int()` truncation toward zero, used by `_predict_node` on
categorical feature values. -/
def pyInt (q : ℚ) : ℤ :=
  if 0 ≤ q then ⌊q⌋ else ⌈q⌉

/-- Embedding of `DecisionTree._predict_node(x, node)`: walk the tree,
descending left exactly when the row's value at the split feature (its
`int()` image for a categorical feature) is strictly below the stored
threshold; an unknown feature type raises `ValueError`. -/
def predictNode (featureTypes : List String) (x : List ℚ) : Node → Except String ℚ
  | .terminal c => .ok c
  | .internal f t l r =>
    if featureTypes.getD f "" = "real" then
      if x.getD f 0 < t then predictNode featureTypes x l else predictNode featureTypes x r
    else if featureTypes.getD f "" = "categorical" then
      if (pyInt (x.getD f 0) : ℚ) < t then predictNode featureTypes x l
      else predictNode featureTypes x r
    else .error "Unknown feature type"

/-- Embedding of `DecisionTree.predict(X)`: one prediction per row, in
row order. -/
def predict (featureTypes : List String) (tree : Node) (X : List (List ℚ)) :
    Except String (List ℚ) :=
  X.mapM (fun x => predictNode featureTypes x tree)

/-- Gini impurity written as the specification words it, for comparison
with the source's Counter-based computation: one minus the sum, over a
given list of classes, of the squared fraction of that class within the
partition. -/
def impuritySpec (classes part : List ℚ) : ℚ :=
  1 - (classes.map (fun c => ((part.count c : ℚ) / (part.length : ℚ)) ^ 2)).sum

/-- Weighted Gini score written as the specification words it:
`(|left|/|total|) * impurity_left + (|right|/|total|) * impurity_right`,
the classes being the distinct labels of the whole label vector. -/
def weightedGiniSpec (y left right : List ℚ) : ℚ :=
  ((left.length : ℚ) / (y.length : ℚ)) * impuritySpec y.dedup left
    + ((right.length : ℚ) / (y.length : ℚ)) * impuritySpec y.dedup right

end HW5

namespace HW5

attribute [local semireducible] Rat.add Rat.mul Rat.inv Rat.sub

/-! Helper lemmas about the embedded primitives. -/

theorem getD_nil_eq (n : ℕ) (d : ℚ) : ([] : List ℚ).getD n d = d := by
  simp [List.getD]

theorem argminIdx_lt_length : ∀ l : List ℚ, l ≠ [] → argminIdx l < l.length
  | [], h => absurd rfl h
  | x :: xs, _ => by
    rw [argminIdx]
    by_cases hx : x ≤ xs.getD (argminIdx xs) x
    · rw [if_pos hx]
      exact Nat.succ_pos _
    · rw [if_neg hx]
      have hxs : xs ≠ [] := by
        intro he
        subst he
        rw [getD_nil_eq] at hx
        exact hx le_rfl
      exact Nat.succ_lt_succ (argminIdx_lt_length xs hxs)

theorem argminIdx_le : ∀ l : List ℚ, ∀ g ∈ l, l.getD (argminIdx l) 0 ≤ g
  | [], g, hg => absurd hg (List.not_mem_nil g)
  | x :: xs, g, hg => by
    rw [argminIdx]
    by_cases hx : x ≤ xs.getD (argminIdx xs) x
    · rw [if_pos hx, List.getD_cons_zero]
      rcases List.mem_cons.mp hg with h | hgt
      · exact le_of_eq h.symm
      · have hxs : xs ≠ [] := List.ne_nil_of_mem hgt
        have hlt : argminIdx xs < xs.length := argminIdx_lt_length xs hxs
        have e1 : xs.getD (argminIdx xs) x = xs.getD (argminIdx xs) 0 := by
          rw [List.getD_eq_getElem xs x hlt, List.getD_eq_getElem xs 0 hlt]
        exact le_trans (e1 ▸ hx) (argminIdx_le xs g hgt)
    · rw [if_neg hx, List.getD_cons_succ]
      have hxs : xs ≠ [] := by
        intro he
        subst he
        rw [getD_nil_eq] at hx
        exact hx le_rfl
      have hlt : argminIdx xs < xs.length := argminIdx_lt_length xs hxs
      have e1 : xs.getD (argminIdx xs) x = xs.getD (argminIdx xs) 0 := by
        rw [List.getD_eq_getElem xs x hlt, List.getD_eq_getElem xs 0 hlt]
      rcases List.mem_cons.mp hg with h | hgt
      · rw [h]
        exact le_of_not_le (fun hc => hx (e1 ▸ hc))
      · exact argminIdx_le xs g hgt

theorem le_maxOf : ∀ l : List ℚ, ∀ x ∈ l, x ≤ maxOf l
  | [], x, hx => absurd hx (List.not_mem_nil x)
  | [a], x, hx => by
    rcases List.mem_cons.mp hx with h | h
    · rw [h]
      exact le_of_eq rfl
    · cases h
  | a :: b :: l, x, hx => by
    rw [maxOf]
    rcases List.mem_cons.mp hx with h | h
    · rw [h]
      exact le_max_left _ _
    · exact le_trans (le_maxOf (b :: l) x h) (le_max_right _ _)

theorem maxOf_mem : ∀ l : List ℚ, l ≠ [] → maxOf l ∈ l
  | [], h => absurd rfl h
  | [a], _ => by
    rw [maxOf]
    exact List.mem_cons_self _ _
  | a :: b :: l, _ => by
    rw [maxOf]
    rcases max_cases a (maxOf (b :: l)) with ⟨he, _⟩ | ⟨he, _⟩
    · rw [he]
      exact List.mem_cons_self _ _
    · rw [he]
      exact List.mem_cons_of_mem _ (maxOf_mem (b :: l) (List.cons_ne_nil b l))

theorem mem_firstDedupAux :
    ∀ (l acc : List ℚ) (x : ℚ), x ∈ firstDedupAux l acc ↔ x ∈ acc ∨ x ∈ l
  | [], acc, x => by simp [firstDedupAux]
  | h :: t, acc, x => by
    rw [firstDedupAux]
    by_cases hm : h ∈ acc
    · rw [if_pos hm, mem_firstDedupAux t acc x]
      simp only [List.mem_cons]
      constructor
      · rintro (ha | ht)
        · exact .inl ha
        · exact .inr (.inr ht)
      · rintro (ha | rfl | ht)
        · exact .inl ha
        · exact .inl hm
        · exact .inr ht
    · rw [if_neg hm, mem_firstDedupAux t (h :: acc) x]
      simp only [List.mem_cons]
      tauto

theorem mem_firstDedup (l : List ℚ) (x : ℚ) : x ∈ firstDedup l ↔ x ∈ l := by
  rw [firstDedup, mem_firstDedupAux]
  simp

theorem dedup_length_one_iff (y : List ℚ) (hy : y ≠ []) :
    y.dedup.length = 1 ↔ ∀ a ∈ y, ∀ b ∈ y, a = b := by
  constructor
  · intro h a ha b hb
    obtain ⟨c, hc⟩ := List.length_eq_one.mp h
    have h1 : a ∈ y.dedup := List.mem_dedup.mpr ha
    have h2 : b ∈ y.dedup := List.mem_dedup.mpr hb
    rw [hc] at h1 h2
    simp at h1 h2
    rw [h1, h2]
  · intro h
    cases hd : y.dedup with
    | nil => exact absurd ((List.dedup_eq_nil y).mp hd) hy
    | cons c rest =>
      cases rest with
      | nil => rfl
      | cons d rest2 =>
        exfalso
        have hnd : y.dedup.Nodup := List.nodup_dedup y
        rw [hd] at hnd
        have hcd : c ≠ d := by
          intro he
          subst he
          simp at hnd
        have hc : c ∈ y := List.mem_dedup.mp (by rw [hd]; exact List.mem_cons_self _ _)
        have hdm : d ∈ y := by
          refine List.mem_dedup.mp ?_
          rw [hd]
          exact List.mem_cons_of_mem _ (List.mem_cons_self _ _)
        exact hcd (h c hc d hdm)

/-! Claim theorems. -/

/-- C6: when the feature vector has fewer than two distinct values,
`find_best_split` returns empty threshold and score sequences and `None`
for both the best threshold and the best score, for every label vector,
and raises no exception. -/
theorem findBestSplit_constant_feature (fv y : List ℚ) (h : fv.dedup.length < 2) :
    findBestSplit fv y = ([], [], none, none) := by
  have hu : (uniqueSorted fv).length < 2 := by
    rw [uniqueSorted, List.length_insertionSort]
    exact h
  rw [findBestSplit, if_pos hu]

/-- Witness for C6 at the constant feature vector `[7, 7, 7]` and the
(unrelated, even mismatched) label vector `[0, 1]`. -/
theorem findBestSplit_constant_feature_w :
    [(7 : ℚ), 7, 7].dedup.length < 2 ∧ findBestSplit [7, 7, 7] [0, 1] = ([], [], none, none) :=
  ⟨by decide, findBestSplit_constant_feature [7, 7, 7] [0, 1] (by decide)⟩

/-- C8: constructing a `DecisionTree` succeeds exactly when every
feature-kind tag is `"real"` or `"categorical"`, and any other tag raises
the configuration error at construction, before any data is seen. -/
theorem decisionTreeInit_validates (fts : List String) :
    (decisionTreeInit fts = .ok fts ↔ ∀ t ∈ fts, t = "real" ∨ t = "categorical") ∧
    (decisionTreeInit fts = .error "There is unknown feature type" ↔
      ¬ ∀ t ∈ fts, t = "real" ∨ t = "categorical") := by
  rw [decisionTreeInit]
  by_cases h : fts.any (fun x => decide (x ≠ "real" ∧ x ≠ "categorical")) = true
  · rw [if_pos h]
    simp only [List.any_eq_true, decide_eq_true_eq] at h
    obtain ⟨t, ht, hne⟩ := h
    have hnp : ¬ ∀ s ∈ fts, s = "real" ∨ s = "categorical" := by
      intro hall
      rcases hall t ht with h1 | h1
      · exact hne.1 h1
      · exact hne.2 h1
    exact ⟨⟨fun he => Except.noConfusion he, fun hall => absurd hall hnp⟩,
      ⟨fun _ => hnp, fun _ => rfl⟩⟩
  · rw [if_neg h]
    simp only [List.any_eq_true, decide_eq_true_eq] at h
    push_neg at h
    have hp : ∀ s ∈ fts, s = "real" ∨ s = "categorical" := by
      intro s hs
      by_contra hc
      push_neg at hc
      exact hc.2 (h s hs hc.1)
    exact ⟨⟨fun _ => hp, fun _ => rfl⟩,
      ⟨fun he => Except.noConfusion he, fun hq => absurd hp hq⟩⟩

/-- C3: whenever `find_best_split` returns a non-empty score sequence,
the returned best score equals the minimum element of that sequence and
the returned best threshold is the parallel threshold at an index
attaining that minimum. -/
theorem findBestSplit_best_is_min (fv y : List ℚ)
    (h : (findBestSplit fv y).2.1 ≠ []) :
    ∃ i : ℕ, i < (findBestSplit fv y).2.1.length ∧
      (findBestSplit fv y).2.2.1 = some ((findBestSplit fv y).1.getD i 0) ∧
      (findBestSplit fv y).2.2.2 = some ((findBestSplit fv y).2.1.getD i 0) ∧
      ∀ g ∈ (findBestSplit fv y).2.1, (findBestSplit fv y).2.1.getD i 0 ≤ g := by
  by_cases h2 : (uniqueSorted fv).length < 2
  · rw [findBestSplit, if_pos h2] at h
    simp at h
  · by_cases hc : splitCandidates fv y = []
    · rw [findBestSplit, if_neg h2, if_pos hc] at h
      simp at h
    · have hm : (splitCandidates fv y).map Prod.snd ≠ [] := by
        intro he
        exact hc (List.map_eq_nil_iff.mp he)
      rw [findBestSplit, if_neg h2, if_neg hc]
      refine ⟨argminIdx ((splitCandidates fv y).map Prod.snd), ?_, rfl, rfl, ?_⟩
      · exact argminIdx_lt_length _ hm
      · exact argminIdx_le _

/-- Witness for C3 at the two-valued feature `[1, 2]` with labels `[0, 1]`. -/
theorem findBestSplit_best_is_min_w :
    ∃ i : ℕ, i < (findBestSplit [1, 2] [0, 1]).2.1.length ∧
      (findBestSplit [1, 2] [0, 1]).2.2.1 = some ((findBestSplit [1, 2] [0, 1]).1.getD i 0) ∧
      (findBestSplit [1, 2] [0, 1]).2.2.2 = some ((findBestSplit [1, 2] [0, 1]).2.1.getD i 0) ∧
      ∀ g ∈ (findBestSplit [1, 2] [0, 1]).2.1,
        (findBestSplit [1, 2] [0, 1]).2.1.getD i 0 ≤ g :=
  findBestSplit_best_is_min [1, 2] [0, 1] (by decide)

theorem uniqueSorted_strict (l : List ℚ) : (uniqueSorted l).Pairwise (· < ·) := by
  have hle : (uniqueSorted l).Pairwise (· ≤ ·) := by
    haveI : IsTotal ℚ (fun a b : ℚ => a ≤ b) := ⟨fun a b => le_total a b⟩
    haveI : IsTrans ℚ (fun a b : ℚ => a ≤ b) := ⟨fun _ _ _ hab hbc => le_trans hab hbc⟩
    exact List.sorted_insertionSort (fun a b : ℚ => a ≤ b) l.dedup
  have hne : (uniqueSorted l).Pairwise (· ≠ ·) := by
    have : (uniqueSorted l).Nodup :=
      ((List.perm_insertionSort (fun a b : ℚ => a ≤ b) l.dedup).nodup_iff).mpr
        (List.nodup_dedup l)
    exact this
  exact (hle.and hne).imp (fun hab => lt_of_le_of_ne hab.1 hab.2)

theorem midpoints_mem :
    ∀ (l : List ℚ) (m : ℚ), m ∈ midpoints l → ∃ x ∈ l, ∃ z ∈ l, m = (x + z) / 2
  | a :: b :: r, m, hm => by
    rw [midpoints] at hm
    rcases List.mem_cons.mp hm with h | h
    · exact ⟨a, List.mem_cons_self _ _, b, List.mem_cons_of_mem _ (List.mem_cons_self _ _), h⟩
    · obtain ⟨x, hx, z, hz, he⟩ := midpoints_mem (b :: r) m h
      exact ⟨x, List.mem_cons_of_mem _ hx, z, List.mem_cons_of_mem _ hz, he⟩

theorem le_of_mem_midpoints (l : List ℚ) (m c : ℚ) (hm : m ∈ midpoints l)
    (hc : ∀ v ∈ l, c ≤ v) : c ≤ m := by
  obtain ⟨x, hx, z, hz, he⟩ := midpoints_mem l m hm
  rw [he]
  have h1 := hc x hx
  have h2 := hc z hz
  linarith

theorem midpoints_pairwise :
    ∀ l : List ℚ, l.Pairwise (· < ·) → (midpoints l).Pairwise (· < ·)
  | [], _ => by
    rw [midpoints]
    exact List.Pairwise.nil
  | [a], _ => by
    rw [midpoints]
    exact List.Pairwise.nil
  | a :: b :: r, h => by
    rw [midpoints]
    have hab : a < b := (List.pairwise_cons.mp h).1 b (List.mem_cons_self _ _)
    have htail : (b :: r).Pairwise (· < ·) := (List.pairwise_cons.mp h).2
    refine List.pairwise_cons.mpr ⟨?_, midpoints_pairwise (b :: r) htail⟩
    intro m hm
    have hble : ∀ v ∈ b :: r, b ≤ v := by
      intro v hv
      rcases List.mem_cons.mp hv with hv | hv
      · exact le_of_eq hv.symm
      · exact le_of_lt ((List.pairwise_cons.mp htail).1 v hv)
    have hbm : b ≤ m := le_of_mem_midpoints (b :: r) m b hm hble
    linarith

theorem midpoints_nil_of_short (l : List ℚ) (h : l.length < 2) : midpoints l = [] := by
  cases l with
  | nil => rfl
  | cons a t =>
    cases t with
    | nil => rfl
    | cons b r =>
      exfalso
      rw [List.length_cons, List.length_cons] at h
      omega

/-- C4: `find_best_split` returns its thresholds in strictly ascending
order; the returned thresholds are exactly the arithmetic midpoints of
adjacent pairs of distinct sorted feature values whose strictly-less-than
left partition and complementary right partition are both non-empty; and
for a feature with distinct sorted values `[1, 2, 3, 4]` the thresholds
are exactly `[1.5, 2.5, 3.5]` in that order. -/
theorem findBestSplit_thresholds_sorted (fv y : List ℚ) :
    (findBestSplit fv y).1.Pairwise (· < ·) ∧
    (∀ t ∈ (findBestSplit fv y).1,
      t ∈ midpoints (uniqueSorted fv) ∧ (∃ v ∈ fv, v < t) ∧ (∃ v ∈ fv, ¬ v < t)) ∧
    (∀ t ∈ midpoints (uniqueSorted fv),
      (∃ v ∈ fv, v < t) → (∃ v ∈ fv, ¬ v < t) → t ∈ (findBestSplit fv y).1) ∧
    (findBestSplit [1, 2, 3, 4] [0, 1, 0, 1]).1 = [3/2, 5/2, 7/2] := by
  refine ⟨?_, ?_, ?_, by decide⟩
  · by_cases h2 : (uniqueSorted fv).length < 2
    · rw [findBestSplit, if_pos h2]
      exact List.Pairwise.nil
    · by_cases hc : splitCandidates fv y = []
      · rw [findBestSplit, if_neg h2, if_pos hc]
        exact List.Pairwise.nil
      · rw [findBestSplit, if_neg h2, if_neg hc]
        have he : (splitCandidates fv y).map Prod.fst = retainedThresholds fv := by
          rw [splitCandidates, List.map_map]
          exact List.map_id _
        simp only [he]
        exact (midpoints_pairwise (uniqueSorted fv) (uniqueSorted_strict fv)).filter _
  · intro t ht
    have hmem : t ∈ retainedThresholds fv := by
      by_cases h2 : (uniqueSorted fv).length < 2
      · rw [findBestSplit, if_pos h2] at ht
        cases ht
      · by_cases hc : splitCandidates fv y = []
        · rw [findBestSplit, if_neg h2, if_pos hc] at ht
          cases ht
        · rw [findBestSplit, if_neg h2, if_neg hc] at ht
          have he : (splitCandidates fv y).map Prod.fst = retainedThresholds fv := by
            rw [splitCandidates, List.map_map]
            exact List.map_id _
          rw [he] at ht
          exact ht
    rw [retainedThresholds] at hmem
    have hf := List.mem_filter.mp hmem
    refine ⟨hf.1, ?_, ?_⟩
    · have := (Bool.and_eq_true _ _).mp hf.2 |>.1
      obtain ⟨v, hv, hvt⟩ := List.any_eq_true.mp this
      exact ⟨v, hv, of_decide_eq_true hvt⟩
    · have := (Bool.and_eq_true _ _).mp hf.2 |>.2
      obtain ⟨v, hv, hvt⟩ := List.any_eq_true.mp this
      refine ⟨v, hv, ?_⟩
      have : decide (v < t) = false := by
        cases hd : decide (v < t)
        · rfl
        · rw [hd] at hvt
          cases hvt
      exact of_decide_eq_false this
  · intro t hmid hl hr
    have hcond : ((fv.any fun v => decide (v < t)) && (fv.any fun v => !decide (v < t))) = true := by
      refine (Bool.and_eq_true _ _).mpr ⟨?_, ?_⟩
      · obtain ⟨v, hv, hvt⟩ := hl
        exact List.any_eq_true.mpr ⟨v, hv, decide_eq_true hvt⟩
      · obtain ⟨v, hv, hvt⟩ := hr
        refine List.any_eq_true.mpr ⟨v, hv, ?_⟩
        rw [decide_eq_false hvt]
        rfl
    have hret : t ∈ retainedThresholds fv := by
      rw [retainedThresholds]
      exact List.mem_filter.mpr ⟨hmid, hcond⟩
    by_cases h2 : (uniqueSorted fv).length < 2
    · rw [midpoints_nil_of_short (uniqueSorted fv) h2] at hmid
      cases hmid
    · by_cases hc : splitCandidates fv y = []
      · exfalso
        rw [splitCandidates] at hc
        rw [List.map_eq_nil_iff.mp hc] at hret
        cases hret
      · rw [findBestSplit, if_neg h2, if_neg hc]
        have he : (splitCandidates fv y).map Prod.fst = retainedThresholds fv := by
          rw [splitCandidates, List.map_map]
          exact List.map_id _
        rw [he]
        exact hret

/-- Witness for C4: instantiates the per-threshold part at the concrete
input from the specification and its first threshold `1.5`. -/
theorem findBestSplit_thresholds_sorted_w :
    (3/2 : ℚ) ∈ midpoints (uniqueSorted [1, 2, 3, 4]) ∧
      (∃ v ∈ [(1 : ℚ), 2, 3, 4], v < 3/2) ∧ (∃ v ∈ [(1 : ℚ), 2, 3, 4], ¬ v < 3/2) :=
  (findBestSplit_thresholds_sorted [1, 2, 3, 4] [0, 1, 0, 1]).2.1 (3/2) (by decide)

theorem selectGo_spec :
    ∀ (results : List (List ℚ × List ℚ)), (∀ p ∈ results, p.2 ≠ []) →
      ∀ (i f0 : ℕ) (t0 g0 : ℚ),
        ∃ f t g, selectGo i (some (f0, t0, g0)) results = .ok (some (f, t, g)) ∧
          g0 ≤ g ∧ (∀ p ∈ results, ∀ x ∈ p.2, x ≤ g) ∧
          (g = g0 ∨ ∃ p ∈ results, g ∈ p.2)
  | [], _, i, f0, t0, g0 => by
    refine ⟨f0, t0, g0, ?_, le_rfl, ?_, .inl rfl⟩
    · rw [selectGo]
    · intro p hp
      cases hp
  | (thr, gin) :: rest, hg, i, f0, t0, g0 => by
    have hgin : gin ≠ [] := hg (thr, gin) (List.mem_cons_self _ _)
    have hrest : ∀ p ∈ rest, p.2 ≠ [] := fun p hp => hg p (List.mem_cons_of_mem _ hp)
    rw [selectGo, if_neg hgin]
    by_cases hlt : g0 < maxOf gin
    · simp only [hlt, if_pos]
      obtain ⟨f, t, g, heq, hge, hbound, hor⟩ :=
        selectGo_spec rest hrest (i + 1) i (thr.getD (argmaxIdx gin) 0) (maxOf gin)
      refine ⟨f, t, g, heq, le_trans (le_of_lt hlt) hge, ?_, ?_⟩
      · intro p hp x hx
        rcases List.mem_cons.mp hp with hp | hp
        · have : x ≤ maxOf gin := le_maxOf gin x (by rw [hp] at hx; exact hx)
          exact le_trans this hge
        · exact hbound p hp x hx
      · rcases hor with he | ⟨p, hp, hgp⟩
        · exact .inr ⟨(thr, gin), List.mem_cons_self _ _, he ▸ maxOf_mem gin hgin⟩
        · exact .inr ⟨p, List.mem_cons_of_mem _ hp, hgp⟩
    · simp only [hlt, if_neg, if_false]
      obtain ⟨f, t, g, heq, hge, hbound, hor⟩ :=
        selectGo_spec rest hrest (i + 1) f0 t0 g0
      refine ⟨f, t, g, heq, hge, ?_, ?_⟩
      · intro p hp x hx
        rcases List.mem_cons.mp hp with hp | hp
        · have h1 : x ≤ maxOf gin := le_maxOf gin x (by rw [hp] at hx; exact hx)
          have h2 : maxOf gin ≤ g0 := le_of_not_lt hlt
          exact le_trans h1 (le_trans h2 hge)
        · exact hbound p hp x hx
      · rcases hor with he | ⟨p, hp, hgp⟩
        · exact .inl he
        · exact .inr ⟨p, List.mem_cons_of_mem _ hp, hgp⟩

/-- C1 counterexample: with two feature columns whose per-column best
(minimum) scores are `1/2` and `1/4`, the builder's tracking logic keeps
feature `0` with score `1/2`, although feature `1` has the strictly lower
per-column best `1/4`; so the winner is not the column of lowest best
score as the claim states. -/
theorem selectBestFeature_not_min :
    selectBestFeature [([3/2], [1/2]), ([5/2], [1/4])] = .ok (some (0, 3/2, 1/2)) ∧
      (1/4 : ℚ) < 1/2 := by
  constructor
  · rfl
  · norm_num

/-- C1 amended: the builder tracks a single best triple across columns,
but each column's candidate is taken at `np.argmax` of its score list and
columns are compared by their maximum weighted Gini score with higher
being better: the winning score bounds every candidate score of every
column from above and is itself attained by some column. -/
theorem selectBestFeature_max_wins (results : List (List ℚ × List ℚ))
    (hne : results ≠ []) (hg : ∀ p ∈ results, p.2 ≠ []) :
    ∃ f t g, selectBestFeature results = .ok (some (f, t, g)) ∧
      (∀ p ∈ results, ∀ x ∈ p.2, x ≤ g) ∧ (∃ p ∈ results, g ∈ p.2) := by
  cases results with
  | nil => exact absurd rfl hne
  | cons hd rest =>
    obtain ⟨thr, gin⟩ := hd
    have hgin : gin ≠ [] := hg (thr, gin) (List.mem_cons_self _ _)
    have hrest : ∀ p ∈ rest, p.2 ≠ [] := fun p hp => hg p (List.mem_cons_of_mem _ hp)
    rw [selectBestFeature, selectGo, if_neg hgin]
    obtain ⟨f, t, g, heq, hge, hbound, hor⟩ :=
      selectGo_spec rest hrest 1 0 (thr.getD (argmaxIdx gin) 0) (maxOf gin)
    refine ⟨f, t, g, heq, ?_, ?_⟩
    · intro p hp x hx
      rcases List.mem_cons.mp hp with hp | hp
      · have : x ≤ maxOf gin := le_maxOf gin x (by rw [hp] at hx; exact hx)
        exact le_trans this hge
      · exact hbound p hp x hx
    · rcases hor with he | ⟨p, hp, hgp⟩
      · exact ⟨(thr, gin), List.mem_cons_self _ _, he ▸ maxOf_mem gin hgin⟩
      · exact ⟨p, List.mem_cons_of_mem _ hp, hgp⟩

/-- Witness for the amended C1 at the two-column counterexample input. -/
theorem selectBestFeature_max_wins_w :
    ∃ f t g,
      selectBestFeature [([3/2], [1/2]), ([5/2], [1/4])] = .ok (some (f, t, g)) ∧
      (∀ p ∈ [([(3 : ℚ)/2], [(1 : ℚ)/2]), ([5/2], [1/4])], ∀ x ∈ p.2, x ≤ g) ∧
      (∃ p ∈ [([(3 : ℚ)/2], [(1 : ℚ)/2]), ([5/2], [1/4])], g ∈ p.2) :=
  selectBestFeature_max_wins [([3/2], [1/2]), ([5/2], [1/4])] (by decide) (by decide)

theorem length_filter_zip (p : ℚ → Bool) :
    ∀ (fv y : List ℚ), fv.length = y.length →
      (((fv.zip y).filter (fun q => p q.1)).map Prod.snd).length = (fv.filter p).length
  | [], y, h => by
    cases y with
    | nil => rfl
    | cons b ys => simp at h
  | a :: fv, y, h => by
    cases y with
    | nil => simp at h
    | cons b ys =>
      have h' : fv.length = ys.length := by simpa using h
      simp only [List.zip_cons_cons, List.filter_cons]
      by_cases hp : p a = true
      · simp only [hp, decide_eq_true_eq, if_true, List.map_cons, List.length_cons]
        rw [length_filter_zip p fv ys h']
      · simp only [hp, if_false, Bool.false_eq_true]
        rw [length_filter_zip p fv ys h']

theorem mem_y_of_mem_filter_zip (fv y : List ℚ) (q : ℚ × ℚ → Bool) :
    ∀ c ∈ ((fv.zip y).filter q).map Prod.snd, c ∈ y := by
  intro c hc
  obtain ⟨p, hp, he⟩ := List.mem_map.mp hc
  obtain ⟨p1, p2⟩ := p
  have hz := (List.mem_filter.mp hp).1
  have hy := (List.of_mem_zip hz).2
  rw [← he]
  exact hy

theorem sum_sq_over_classes (part y : List ℚ) (s : ℚ)
    (hsub : ∀ c ∈ part, c ∈ y) :
    (y.dedup.map (fun c => ((part.count c : ℚ) / s) ^ 2)).sum
      = (part.dedup.map (fun c => ((part.count c : ℚ) / s) ^ 2)).sum := by
  have h1 : (y.dedup.map (fun c => ((part.count c : ℚ) / s) ^ 2)).sum
      = y.toFinset.sum (fun c => ((part.count c : ℚ) / s) ^ 2) := by
    rw [← List.sum_toFinset _ (List.nodup_dedup y)]
    congr 1
    apply List.toFinset_eq_iff_perm_dedup.mpr
    rw [List.dedup_idem]
  have h2 : (part.dedup.map (fun c => ((part.count c : ℚ) / s) ^ 2)).sum
      = part.toFinset.sum (fun c => ((part.count c : ℚ) / s) ^ 2) := by
    rw [← List.sum_toFinset _ (List.nodup_dedup part)]
    congr 1
    apply List.toFinset_eq_iff_perm_dedup.mpr
    rw [List.dedup_idem]
  rw [h1, h2]
  symm
  apply Finset.sum_subset
  · intro c hc
    exact List.mem_toFinset.mpr (hsub c (List.mem_toFinset.mp hc))
  · intro c _ hcn
    have hz : part.count c = 0 :=
      List.count_eq_zero.mpr (fun hm => hcn (List.mem_toFinset.mpr hm))
    rw [hz]
    simp

theorem giniOf_eq_impuritySpec (part y : List ℚ) (hsub : ∀ c ∈ part, c ∈ y) :
    giniOf part part.length = impuritySpec y.dedup part := by
  rw [giniOf, impuritySpec, sum_sq_over_classes part y ((part.length : ℕ) : ℚ) hsub]

theorem splitScore_eq_spec (fv y : List ℚ) (t : ℚ) (hlen : fv.length = y.length) :
    splitScore fv y t = weightedGiniSpec y (leftLabels fv y t) (rightLabels fv y t) := by
  have hL : (leftLabels fv y t).length = (fv.filter (fun v => decide (v < t))).length := by
    rw [leftLabels]
    exact length_filter_zip (fun v => decide (v < t)) fv y hlen
  have hR : (rightLabels fv y t).length = (fv.filter (fun v => !decide (v < t))).length := by
    rw [rightLabels]
    exact length_filter_zip (fun v => !decide (v < t)) fv y hlen
  have hsubL : ∀ c ∈ leftLabels fv y t, c ∈ y := by
    rw [leftLabels]
    exact mem_y_of_mem_filter_zip fv y _
  have hsubR : ∀ c ∈ rightLabels fv y t, c ∈ y := by
    rw [rightLabels]
    exact mem_y_of_mem_filter_zip fv y _
  rw [splitScore, weightedGiniSpec, ← hL, ← hR,
    giniOf_eq_impuritySpec (leftLabels fv y t) y hsubL,
    giniOf_eq_impuritySpec (rightLabels fv y t) y hsubR]

theorem getD_map_splitScore (f : ℚ → ℚ) (l : List ℚ) (i : ℕ) (h : i < l.length) :
    (l.map f).getD i 0 = f (l.getD i 0) := by
  rw [List.getD_eq_getElem _ 0 (by simpa using h), List.getD_eq_getElem _ 0 h,
    List.getElem_map]

/-- C5: every score in the sequence returned by `find_best_split` equals
the size-weighted Gini impurity of the two partitions induced by the
parallel threshold, in the specification's formulation; and at feature
vector `[1, 1, 2, 2]` with labels `[0, 0, 1, 1]` the single candidate
threshold `1.5` scores `0`, trivially strictly lower than every other
candidate (there is none), and is returned as best. -/
theorem findBestSplit_scores_weighted_gini (fv y : List ℚ) (hlen : fv.length = y.length) :
    (∀ i, i < (findBestSplit fv y).2.1.length →
      (findBestSplit fv y).2.1.getD i 0
        = weightedGiniSpec y (leftLabels fv y ((findBestSplit fv y).1.getD i 0))
            (rightLabels fv y ((findBestSplit fv y).1.getD i 0))) ∧
    findBestSplit [1, 1, 2, 2] [0, 0, 1, 1] = ([3/2], [0], some (3/2), some 0) := by
  refine ⟨?_, by decide⟩
  intro i hi
  by_cases h2 : (uniqueSorted fv).length < 2
  · rw [findBestSplit, if_pos h2] at hi
    exact absurd hi (by simp)
  · by_cases hc : splitCandidates fv y = []
    · rw [findBestSplit, if_neg h2, if_pos hc] at hi
      exact absurd hi (by simp)
    · rw [findBestSplit, if_neg h2, if_neg hc] at hi ⊢
      have hmapfst : (splitCandidates fv y).map Prod.fst = retainedThresholds fv := by
        rw [splitCandidates, List.map_map]
        exact List.map_id _
      have hmapsnd : (splitCandidates fv y).map Prod.snd
          = (retainedThresholds fv).map (fun t => splitScore fv y t) := by
        rw [splitCandidates, List.map_map]
        rfl
      have hr : i < (retainedThresholds fv).length := by
        rw [hmapsnd] at hi
        simpa using hi
      rw [hmapfst, hmapsnd, getD_map_splitScore _ _ _ hr]
      exact splitScore_eq_spec fv y _ hlen

/-- Witness for C5 at the concrete input from the specification. -/
theorem findBestSplit_scores_weighted_gini_w :
    (findBestSplit [1, 1, 2, 2] [0, 0, 1, 1]).2.1.getD 0 0
      = weightedGiniSpec [0, 0, 1, 1]
          (leftLabels [1, 1, 2, 2] [0, 0, 1, 1]
            ((findBestSplit [1, 1, 2, 2] [0, 0, 1, 1]).1.getD 0 0))
          (rightLabels [1, 1, 2, 2] [0, 0, 1, 1]
            ((findBestSplit [1, 1, 2, 2] [0, 0, 1, 1]).1.getD 0 0)) :=
  (findBestSplit_scores_weighted_gini [1, 1, 2, 2] [0, 0, 1, 1] (by decide)).1 0 (by decide)

/-- C2: for a tree with valid feature kinds, at least one feature column
and a non-empty label vector, `fit` returns normally exactly when all
labels are identical (yielding a Terminal root holding the first label);
with at least two distinct labels it raises the `ValueError` caused by
unpacking the 4-tuple of `find_best_split` into two variables, before any
split is built. -/
theorem fit_ok_iff_pure_labels (fts : List String) (X : List (List ℚ)) (y : List ℚ)
    (hy : y ≠ []) (hcols : ncols X ≠ 0) (hft : fts ≠ [])
    (hvalid : ∀ s ∈ fts, s = "real" ∨ s = "categorical") :
    ((∀ a ∈ y, ∀ b ∈ y, a = b) → fit fts X y = .ok (.terminal (y.headD 0))) ∧
    ((∃ a ∈ y, ∃ b ∈ y, a ≠ b) →
      fit fts X y = .error "ValueError: too many values to unpack (expected 2)") ∧
    (∀ node, fit fts X y = .ok node → ∀ a ∈ y, ∀ b ∈ y, a = b) := by
  have herr : y.dedup.length ≠ 1 →
      fit fts X y = .error "ValueError: too many values to unpack (expected 2)" := by
    intro h1
    rw [fit, fitNode.eq_def, if_neg h1, if_neg hcols]
    cases fts with
    | nil => exact absurd rfl hft
    | cons t rest =>
      have hv := hvalid t (List.mem_cons_self _ _)
      simp only [if_pos hv]
  refine ⟨?_, ?_, ?_⟩
  · intro hall
    have h1 : y.dedup.length = 1 := (dedup_length_one_iff y hy).mpr hall
    rw [fit, fitNode.eq_def, if_pos h1]
  · rintro ⟨a, ha, b, hb, hab⟩
    refine herr ?_
    intro h1
    exact hab ((dedup_length_one_iff y hy).mp h1 a ha b hb)
  · intro node hnode a ha b hb
    by_contra hab
    have h1 : y.dedup.length ≠ 1 := by
      intro h1
      exact hab ((dedup_length_one_iff y hy).mp h1 a ha b hb)
    rw [herr h1] at hnode
    exact Except.noConfusion hnode

/-- Witness for C2 at a two-row dataset with two distinct labels. -/
theorem fit_ok_iff_pure_labels_w :
    fit ["real"] [[1], [2]] [0, 1]
      = .error "ValueError: too many values to unpack (expected 2)" :=
  (fit_ok_iff_pure_labels ["real"] [[1], [2]] [0, 1] (by decide) (by decide)
    (by decide) (by decide)).2.1 ⟨0, by decide, 1, by decide, by decide⟩

theorem predict_terminal (fts : List String) (c : ℚ) :
    ∀ rows : List (List ℚ),
      predict fts (Node.terminal c) rows = .ok (rows.map (fun _ => c))
  | [] => rfl
  | r :: rows => by
    have ih := predict_terminal fts c rows
    rw [predict] at ih ⊢
    rw [List.mapM_cons, show predictNode fts r (Node.terminal c) = Except.ok c from rfl, ih]
    rfl

/-- C7: when every label of the dataset equals `c`, `fit` produces the
single Terminal root holding `c`, and `predict` on the fitted tree
returns `c` for every row of any input, including rows never seen during
fit. -/
theorem fit_pure_terminal_predict (fts : List String) (X : List (List ℚ)) (y : List ℚ)
    (c : ℚ) (hy : y ≠ []) (hall : ∀ l ∈ y, l = c) :
    fit fts X y = .ok (.terminal c) ∧
    ∀ rows : List (List ℚ),
      predict fts (Node.terminal c) rows = .ok (rows.map (fun _ => c)) := by
  constructor
  · have hpairs : ∀ a ∈ y, ∀ b ∈ y, a = b :=
      fun a ha b hb => (hall a ha).trans (hall b hb).symm
    have h1 : y.dedup.length = 1 := (dedup_length_one_iff y hy).mpr hpairs
    have hhead : y.headD 0 = c := by
      cases y with
      | nil => exact absurd rfl hy
      | cons a ys => exact hall a (List.mem_cons_self _ _)
    rw [fit, fitNode.eq_def, if_pos h1, hhead]
  · exact predict_terminal fts c

/-- Witness for C7: a uniformly-labelled dataset, then prediction on rows
that never appeared in it. -/
theorem fit_pure_terminal_predict_w :
    fit ["real"] [[1]] [5, 5] = .ok (.terminal 5) ∧
    predict ["real"] (Node.terminal 5) [[42], [0]] = .ok [5, 5] := by
  have h := fit_pure_terminal_predict ["real"] [[1]] [5, 5] 5 (by decide) (by decide)
  exact ⟨h.1, (h.2 [[42], [0]]).trans rfl⟩

/-- C9 counterexample: `fit` does not reject a row-count mismatch at
entry: with three feature rows and only two (identical) labels it
silently returns a Terminal tree instead of failing. -/
theorem fit_accepts_degenerate_input :
    fit ["real"] [[1], [2], [3]] [1, 1] = .ok (.terminal 1) := rfl

/-- C9 amended: `fit` performs no validation at entry: a row-count
mismatch between `X` and `y` whose label vector is uniform yields a
Terminal tree, and an empty dataset fails only with an exception raised
from inside the recursive node construction, not with an upfront
rejection. -/
theorem fit_no_entry_validation :
    fit ["real"] [[1], [2], [3]] [1, 1] = .ok (.terminal 1) ∧
    fit ["real"] [] [] = .error "IndexError: list index out of range" :=
  ⟨rfl, rfl⟩

/-- C10: at a node, the categorical encoder gives every category present
in the subset a rank below the number of distinct categories, orders the
rank scale ascending by the per-category statistic, and assigns statistic
`0` to a category absent from the reference label class instead of
dividing by zero. -/
theorem categorical_encoding_ranks (col y : List ℚ) :
    (∀ c ∈ col, c ∈ sortedCategories col y ∧
      categoriesMap col y c < (firstDedup col).length) ∧
    (sortedCategories col y).Pairwise (fun a b => ratioStat col y a ≤ ratioStat col y b) ∧
    (∀ c, (clickVals col y).count c = 0 → ratioStat col y c = 0) := by
  refine ⟨?_, ?_, ?_⟩
  · intro c hc
    have hmem : c ∈ sortedCategories col y := by
      rw [sortedCategories, List.mem_insertionSort]
      exact (mem_firstDedup col c).mpr hc
    refine ⟨hmem, ?_⟩
    have hlt := List.indexOf_lt_length.mpr hmem
    rw [categoriesMap]
    calc (sortedCategories col y).indexOf c
        < (sortedCategories col y).length := hlt
      _ = (firstDedup col).length := by rw [sortedCategories, List.length_insertionSort]
  · haveI : IsTotal ℚ (fun a b : ℚ => ratioStat col y a ≤ ratioStat col y b) :=
      ⟨fun a b => le_total _ _⟩
    haveI : IsTrans ℚ (fun a b : ℚ => ratioStat col y a ≤ ratioStat col y b) :=
      ⟨fun _ _ _ hab hbc => le_trans hab hbc⟩
    rw [sortedCategories]
    exact List.sorted_insertionSort _ _
  · intro c hc
    rw [ratioStat, if_neg (not_not_intro hc)]

/-- Witness for C10 at a subset whose category `4` is absent from the
reference class `y = 1`. -/
theorem categorical_encoding_ranks_w :
    (4 : ℚ) ∈ sortedCategories [3, 3, 4] [1, 0, 0] ∧
      categoriesMap [3, 3, 4] [1, 0, 0] 4 < (firstDedup [(3 : ℚ), 3, 4]).length :=
  (categorical_encoding_ranks [3, 3, 4] [1, 0, 0]).1 4 (by decide)

end HW5
